import Mathlib

/-!
# Verification of the `binarray` crate (`src/lib.rs`)

The crate exposes a trait `BinaryArray` with three operations, `get_bit`,
`set_bit` and `to_bstring`, implemented for `u8`, `u16`, `u32`, `u64`,
`u128` and `usize`.  The six implementations are textually identical up to
the bit width `W` of the integer type, so we embed them once, parametrised
by `W : Nat`.  A `W`-bit machine value is represented as a `Nat` below
`2 ^ W`; bitwise machine operations become the corresponding `Nat`
operations truncated by `% 2 ^ W` where overflow can occur.

Rust's `1 << index` on a `W`-bit integer is an arithmetic-overflow error
when `index ≥ W` (a panic with debug assertions enabled); we model this
fallible shift with `Option`, `none` standing for the error branch, so that
totality on in-range indices is a provable statement.
-/

namespace BinArray

/-- The boolean-to-character rendering used by binary formatting:
`'1'` for a set bit, `'0'` for a clear bit. -/
def bitChar (b : Bool) : Char := if b then '1' else '0'

/-- Rust's `1 << index` evaluated at width `W`: the single-bit mask
`2 ^ index`, truncated to `W` bits; `none` models the shift-overflow
error branch taken when `index ≥ W`. -/
def shiftMask (W index : Nat) : Option Nat :=
  if index < W then some ((1 <<< index) % 2 ^ W) else none

/-- Rust's bitwise complement `!x` at width `W` (on a `W`-bit value this
flips exactly the low `W` bits). -/
def notW (W x : Nat) : Nat := x ^^^ (2 ^ W - 1)

/-- Rust's `a.wrapping_sub(b)` at width `W`: subtraction modulo `2 ^ W`. -/
def wrappingSub (W a b : Nat) : Nat := (a + (2 ^ W - b % 2 ^ W)) % 2 ^ W

/-- `fn get_bit(&self, index: usize) -> bool` from `src/lib.rs`:
`(*self & (1 << index)) != 0`.  `W` is the bit width of the
implementing type (8, 16, 32, 64, 128, or the `usize` width). -/
def get_bit (W v index : Nat) : Option Bool :=
  (shiftMask W index).map fun mask => decide (v &&& mask ≠ 0)

/-- `fn set_bit(&mut self, index: usize, value: bool) -> Self` from
`src/lib.rs`:
`let mask = 1 << index; *self & !mask | (mask & (0.wrapping_sub(value as uN)))`.
Returns the updated value (the receiver is not written; see
`set_bit_call` for the state-passing embedding of the body). -/
def set_bit (W v index : Nat) (value : Bool) : Option Nat :=
  (shiftMask W index).map fun mask =>
    v &&& notW W mask ||| (mask &&& wrappingSub W 0 value.toNat)

/-- State-passing embedding of the whole body of `set_bit`, receiver
included: the body reads `*self`, never assigns through the `&mut self`
reference, and returns the computed expression.  The result pairs the
receiver's value after the call with the returned value. -/
def set_bit_call (W self index : Nat) (value : Bool) : Option (Nat × Nat) :=
  (shiftMask W index).map fun mask =>
    (self, self &&& notW W mask ||| (mask &&& wrappingSub W 0 value.toNat))

/-- The digits of `n` in binary, least significant first, as produced by
Rust's `{:b}` formatting (empty for `n = 0`; the zero case is handled in
`binStr`).  `fuel` bounds the recursion depth; any `fuel` with
`n < 2 ^ fuel` yields all digits, and the callers in this file pass the
bit width `W` of the formatted value. -/
def binDigitsLE : Nat → Nat → List Char
  | 0, _ => []
  | fuel + 1, n =>
    if n = 0 then [] else bitChar (n % 2 == 1) :: binDigitsLE fuel (n / 2)

/-- The unpadded binary representation `{:b}` of `v`: most significant
digit first, no leading zeros, and the single digit `"0"` for zero. -/
def binStr (W v : Nat) : List Char :=
  if v = 0 then ['0'] else (binDigitsLE W v).reverse

/-- `fn to_bstring(&self) -> String` from `src/lib.rs`:
`format!("{:0Wb}", self)` with the width literal `W` of the implementing
type — the binary representation left-padded with `'0'` to `W`
characters — as a list of the string's characters. -/
def to_bstring (W v : Nat) : List Char :=
  List.replicate (W - (binStr W v).length) '0' ++ binStr W v

/-- `to_bstring` of the `usize` implementation: the pad width is
`std::mem::size_of::<usize>() * 8`, computed from the platform's byte
size of `usize`, not a hardcoded constant. -/
def usize_to_bstring (size_of_usize v : Nat) : List Char :=
  to_bstring (size_of_usize * 8) v

/-- The naive, branching reference for `set_bit`, stated from the spec's
description: force bit `index` to 1 (`v OR mask`) when `value` is true,
force it to 0 (`v AND NOT mask`) when `value` is false. -/
def set_bit_naive (W v index : Nat) (value : Bool) : Option Nat :=
  (shiftMask W index).map fun mask =>
    if value then v ||| mask else v &&& notW W mask

/-! ## Helper lemmas -/

theorem shiftMask_of_lt {W index : Nat} (h : index < W) :
    shiftMask W index = some (2 ^ index) := by
  have h2 : (2 : Nat) ^ index < 2 ^ W := Nat.pow_lt_pow_right (by omega) h
  simp [shiftMask, h, Nat.one_shiftLeft, Nat.mod_eq_of_lt h2]

theorem wrappingSub_zero (W : Nat) (hW : 0 < W) (b : Bool) :
    wrappingSub W 0 b.toNat = if b then 2 ^ W - 1 else 0 := by
  have h2 : (2 : Nat) ≤ 2 ^ W := Nat.one_lt_two_pow (by omega)
  cases b
  · simp [wrappingSub]
  · show (0 + (2 ^ W - 1 % 2 ^ W)) % 2 ^ W = 2 ^ W - 1
    rw [Nat.mod_eq_of_lt (show 1 < 2 ^ W by omega), Nat.zero_add,
      Nat.mod_eq_of_lt (by omega)]

theorem and_two_pow_ne_zero (v i : Nat) :
    decide (v &&& 2 ^ i ≠ 0) = v.testBit i := by
  cases h : v.testBit i
  · have hz : v &&& 2 ^ i = 0 := by
      apply Nat.eq_of_testBit_eq
      intro k
      by_cases hk : k = i
      · subst hk; simp [Nat.testBit_and, h, Nat.testBit_two_pow_self]
      · simp [Nat.testBit_and, Nat.testBit_two_pow_of_ne (fun hik => hk hik.symm)]
    simp [hz]
  · have hnz : v &&& 2 ^ i ≠ 0 := by
      intro hz
      have := congrArg (fun n => Nat.testBit n i) hz
      simp [Nat.testBit_and, h, Nat.testBit_two_pow_self] at this
    simp [hnz]

theorem get_bit_of_lt {W v index : Nat} (h : index < W) :
    get_bit W v index = some (v.testBit index) := by
  rw [get_bit, shiftMask_of_lt h]
  exact congrArg some (and_two_pow_ne_zero v index)

theorem set_bit_of_lt {W v index : Nat} (value : Bool) (h : index < W) :
    set_bit W v index value =
      some (v &&& notW W (2 ^ index) |||
        (2 ^ index &&& wrappingSub W 0 value.toNat)) := by
  rw [set_bit, shiftMask_of_lt h]
  rfl

/-- Bit-level characterisation of the value `set_bit` returns: bit `index`
becomes `value`, every other bit below `W` is preserved, and bits at or
above `W` are clear. -/
theorem set_bit_payload_testBit {W index : Nat} (v : Nat) (value : Bool)
    (h : index < W) (k : Nat) :
    (v &&& notW W (2 ^ index) |||
        (2 ^ index &&& wrappingSub W 0 value.toNat)).testBit k =
      if k = index then value else (v.testBit k && decide (k < W)) := by
  rw [wrappingSub_zero W (by omega) value]
  rcases Decidable.em (k = index) with hk | hk
  · subst hk
    cases value <;>
      simp [notW, Nat.testBit_or, Nat.testBit_and, Nat.testBit_xor,
        Nat.testBit_two_pow_self, Nat.testBit_two_pow_sub_one, h]
  · have hne : index ≠ k := fun hik => hk hik.symm
    cases value <;>
      simp [hk, notW, Nat.testBit_or, Nat.testBit_and, Nat.testBit_xor,
        Nat.testBit_two_pow_of_ne hne, Nat.testBit_two_pow_sub_one]

/-- The binary digits of `n` (generated with enough fuel), padded on the
right with `'0'` up to `fuel` digits, are exactly the bits
`n.testBit 0, …, n.testBit (fuel - 1)`. -/
theorem binDigitsLE_append_replicate {fuel n : Nat} (h : n < 2 ^ fuel) :
    binDigitsLE fuel n ++
        List.replicate (fuel - (binDigitsLE fuel n).length) '0' =
      (List.range fuel).map fun i => bitChar (n.testBit i) := by
  induction fuel generalizing n with
  | zero =>
    have hn : n = 0 := by omega
    subst hn
    simp [binDigitsLE]
  | succ fuel ih =>
    by_cases hn : n = 0
    · subst hn
      simp [binDigitsLE, bitChar]
    · have hstep : binDigitsLE (fuel + 1) n =
          bitChar (n % 2 == 1) :: binDigitsLE fuel (n / 2) := by
        rw [binDigitsLE]
        simp [hn]
      have hpow : 2 ^ (fuel + 1) = 2 ^ fuel * 2 := by rw [Nat.pow_succ]
      have hdiv : n / 2 < 2 ^ fuel := by omega
      rw [hstep, List.range_succ_eq_map]
      simp only [List.cons_append, List.length_cons, List.map_cons,
        List.map_map, Nat.succ_sub_succ]
      congr 1
      · rw [Nat.testBit_zero]
        cases hm : n % 2 == 1 <;> simp_all
      · rw [ih hdiv]
        apply List.map_congr_left
        intro i _
        simp [Function.comp, Nat.testBit_succ]

theorem binDigitsLE_length_le {fuel n : Nat} (h : n < 2 ^ fuel) :
    (binDigitsLE fuel n).length ≤ fuel := by
  have hlen := congrArg List.length (binDigitsLE_append_replicate h)
  simp at hlen
  omega

/-- For a `W`-bit value, the formatted string is the sequence of bits
`W - 1, …, 1, 0` (most significant first). -/
theorem to_bstring_eq_testBits {W v : Nat} (hW : 0 < W) (hv : v < 2 ^ W) :
    to_bstring W v =
      ((List.range W).map fun i => bitChar (v.testBit i)).reverse := by
  by_cases h0 : v = 0
  · subst h0
    simp [to_bstring, binStr, bitChar]
    conv_rhs => rw [show W = (W - 1) + 1 by omega, List.replicate_succ']
  · have key := congrArg List.reverse
      (@binDigitsLE_append_replicate W v hv)
    simp only [List.reverse_append, List.reverse_replicate] at key
    simpa [to_bstring, binStr, h0] using key

/-! ## The claims -/

/-- C1: for every width `W`, every `W`-bit value `v`, every in-range index
`index < W` and every boolean `b`, reading back the bit just written
returns it: `get_bit (set_bit v index b) index = b`. -/
theorem get_bit_set_bit (W v index : Nat) (b : Bool) (h : index < W) :
    (set_bit W v index b).bind (fun v2 => get_bit W v2 index) = some b := by
  rw [set_bit_of_lt b h]
  show get_bit W _ index = some b
  rw [get_bit_of_lt h, set_bit_payload_testBit v b h index]
  simp

theorem get_bit_set_bit_witness :
    2 < 8 ∧ (set_bit 8 5 2 true).bind (fun v2 => get_bit 8 v2 2) = some true :=
  ⟨by decide, get_bit_set_bit 8 5 2 true (by decide)⟩

/-- C2: setting bit `index` perturbs no other bit: for in-range `j ≠ index`,
`get_bit (set_bit v index b) j = get_bit v j`. -/
theorem set_bit_noninterference (W v index j : Nat) (b : Bool)
    (hi : index < W) (hj : j < W) (hne : j ≠ index) :
    (set_bit W v index b).bind (fun v2 => get_bit W v2 j) = get_bit W v j := by
  rw [set_bit_of_lt b hi]
  show get_bit W _ j = get_bit W v j
  rw [get_bit_of_lt hj, get_bit_of_lt hj, set_bit_payload_testBit v b hi j]
  simp [hne, hj]

theorem set_bit_noninterference_witness :
    2 < 8 ∧ 5 < 8 ∧ 5 ≠ 2 ∧
    (set_bit 8 37 2 true).bind (fun v2 => get_bit 8 v2 5) = get_bit 8 37 5 :=
  ⟨by decide, by decide, by decide,
    set_bit_noninterference 8 37 2 5 true (by decide) (by decide) (by decide)⟩

/-- C3: the branchless `set_bit` — clear the target bit, then OR in the
mask masked by the wrapping-subtraction fill — coincides with the naive
branching reference `if b then v OR mask else v AND NOT mask`. -/
theorem set_bit_eq_naive (W v index : Nat) (b : Bool)
    (h : index < W) (hv : v < 2 ^ W) :
    set_bit W v index b = set_bit_naive W v index b := by
  have hlt : (2 : Nat) ^ index < 2 ^ W := Nat.pow_lt_pow_right (by omega) h
  rw [set_bit_of_lt b h, set_bit_naive, shiftMask_of_lt h]
  cases b
  · simp [wrappingSub]
  · simp only [wrappingSub_zero W (by omega), if_true, Option.map_some',
      Option.some.injEq]
    rw [Nat.and_pow_two_sub_one_of_lt_two_pow hlt]
    apply Nat.eq_of_testBit_eq
    intro k
    by_cases hk : k = index
    · subst hk
      simp [notW, Nat.testBit_two_pow_self]
    · have hne : index ≠ k := fun hik => hk hik.symm
      by_cases hkW : k < W
      · simp [notW, Nat.testBit_two_pow_of_ne hne,
          Nat.testBit_two_pow_sub_one, hkW]
      · have hbit : v.testBit k = false := Nat.testBit_lt_two_pow
          (lt_of_lt_of_le hv (Nat.pow_le_pow_right (by omega) (by omega)))
        simp [notW, Nat.testBit_two_pow_of_ne hne, hbit]

theorem set_bit_eq_naive_witness :
    3 < 8 ∧ 200 < 2 ^ 8 ∧
    set_bit 8 200 3 false = set_bit_naive 8 200 3 false :=
  ⟨by decide, by decide, set_bit_eq_naive 8 200 3 false (by decide) (by decide)⟩

/-- C4: `get_bit v index` is true exactly when bit `index` of `v` is 1,
i.e. when `(v >> index) AND 1 = 1`. -/
theorem get_bit_correct (W v index : Nat) (h : index < W) :
    get_bit W v index = some (decide ((v >>> index) &&& 1 = 1)) := by
  rw [get_bit_of_lt h]
  congr 1
  rw [Nat.testBit_to_div_mod]
  simp [Nat.shiftRight_eq_div_pow, Nat.and_one_is_mod]

theorem get_bit_correct_witness :
    2 < 8 ∧ get_bit 8 4 2 = some (decide ((4 >>> 2) &&& 1 = 1)) :=
  ⟨by decide, get_bit_correct 8 4 2 (by decide)⟩

/-- C5: `to_bstring v` has exactly `W` characters, all of them `'0'` or
`'1'`, and its character at position `W - 1 - i` from the left is `'1'`
exactly when `get_bit v i` is true. -/
theorem to_bstring_spec (W v : Nat) (hW : 0 < W) (hv : v < 2 ^ W) :
    (to_bstring W v).length = W ∧
    (∀ c ∈ to_bstring W v, c = '0' ∨ c = '1') ∧
    (∀ i, i < W →
      ((to_bstring W v)[W - 1 - i]? = some '1' ↔
        get_bit W v i = some true)) := by
  rw [to_bstring_eq_testBits hW hv]
  refine ⟨by simp, ?_, ?_⟩
  · intro c hc
    simp only [List.mem_reverse, List.mem_map, List.mem_range] at hc
    obtain ⟨i, _, hi⟩ := hc
    cases h : v.testBit i <;> rw [← hi] <;> simp [bitChar, h]
  · intro i hi
    rw [List.getElem?_reverse (by simp; omega)]
    have hidx : ((List.range W).map fun j => bitChar (v.testBit j)).length
        - 1 - (W - 1 - i) = i := by
      simp
      omega
    rw [hidx, List.getElem?_map, List.getElem?_range hi, get_bit_of_lt hi]
    cases h : v.testBit i <;> simp [bitChar, h]

theorem to_bstring_spec_witness :
    0 < 8 ∧ 69 < 2 ^ 8 ∧
    ((to_bstring 8 69).length = 8 ∧
     (∀ c ∈ to_bstring 8 69, c = '0' ∨ c = '1') ∧
     (∀ i, i < 8 →
       ((to_bstring 8 69)[8 - 1 - i]? = some '1' ↔
         get_bit 8 69 i = some true))) :=
  ⟨by decide, by decide, to_bstring_spec 8 69 (by decide) (by decide)⟩

/-- C6: the body of `set_bit` never writes through its `&mut self`
receiver: after the call the receiver still holds its old value, and the
update is only communicated through the return value. -/
theorem set_bit_receiver_unchanged (W self index : Nat) (value : Bool)
    (h : index < W) :
    (set_bit_call W self index value).map Prod.fst = some self ∧
    (set_bit_call W self index value).map Prod.snd =
      set_bit W self index value := by
  rw [set_bit_call, set_bit, shiftMask_of_lt h]
  exact ⟨rfl, rfl⟩

theorem set_bit_receiver_unchanged_witness :
    2 < 8 ∧
    ((set_bit_call 8 6 2 true).map Prod.fst = some 6 ∧
     (set_bit_call 8 6 2 true).map Prod.snd = set_bit 8 6 2 true) :=
  ⟨by decide, set_bit_receiver_unchanged 8 6 2 true (by decide)⟩

/-- C7: writing a bit's current value back is the identity:
`set_bit v index (get_bit v index) = v`. -/
theorem set_bit_get_bit_id (W v index : Nat) (h : index < W)
    (hv : v < 2 ^ W) :
    (get_bit W v index).bind (fun b => set_bit W v index b) = some v := by
  rw [get_bit_of_lt h]
  show set_bit W v index (v.testBit index) = some v
  rw [set_bit_of_lt _ h]
  congr 1
  apply Nat.eq_of_testBit_eq
  intro k
  rw [set_bit_payload_testBit v _ h k]
  by_cases hk : k = index
  · subst hk
    simp
  · by_cases hkW : k < W
    · simp [hk, hkW]
    · have hbit : v.testBit k = false := Nat.testBit_lt_two_pow
        (lt_of_lt_of_le hv (Nat.pow_le_pow_right (by omega) (by omega)))
      simp [hk, hbit]

theorem set_bit_get_bit_id_witness :
    1 < 8 ∧ 6 < 2 ^ 8 ∧
    (get_bit 8 6 1).bind (fun b => set_bit 8 6 1 b) = some 6 :=
  ⟨by decide, by decide, set_bit_get_bit_id 8 6 1 (by decide) (by decide)⟩

/-- C8: the `usize` implementation pads to the platform's actual word
width `size_of::<usize>() * 8`, whatever that is: for every platform byte
size and every representable value, the string's length is the word
width.  The theorem is uniform in `size_of_usize`, so no hardcoded
constant would satisfy it. -/
theorem usize_to_bstring_length (size_of_usize v : Nat)
    (hs : 0 < size_of_usize) (hv : v < 2 ^ (size_of_usize * 8)) :
    (usize_to_bstring size_of_usize v).length = size_of_usize * 8 := by
  rw [usize_to_bstring, to_bstring_eq_testBits (by omega) hv]
  simp

theorem usize_to_bstring_length_witness :
    0 < 8 ∧ 77 < 2 ^ (8 * 8) ∧
    (usize_to_bstring 8 77).length = 8 * 8 :=
  ⟨by decide, by decide, usize_to_bstring_length 8 77 (by decide) (by decide)⟩

/-- C9: on in-range indices the shift-overflow error branch is
unreachable — `get_bit` and `set_bit` return `some`, never the `none`
that models a panic — and `to_bstring` always produces its full-width
string. -/
theorem ops_total_in_range (W v index : Nat) (b : Bool)
    (h : index < W) (hv : v < 2 ^ W) :
    (get_bit W v index).isSome = true ∧
    (set_bit W v index b).isSome = true ∧
    (to_bstring W v).length = W := by
  refine ⟨?_, ?_, ?_⟩
  · rw [get_bit_of_lt h]
    rfl
  · rw [set_bit_of_lt b h]
    rfl
  · rw [to_bstring_eq_testBits (by omega) hv]
    simp

theorem ops_total_in_range_witness :
    7 < 8 ∧ 255 < 2 ^ 8 ∧
    ((get_bit 8 255 7).isSome = true ∧
     (set_bit 8 255 7 false).isSome = true ∧
     (to_bstring 8 255).length = 8) :=
  ⟨by decide, by decide, ops_total_in_range 8 255 7 false (by decide) (by decide)⟩

/-- C10: the concrete scenarios from the crate's unit tests:
`get_bit(4, 2) = true` and `get_bit(4, 1) = false` on `u8`;
`set_bit(0, 2, true) = 4` and `set_bit(6, 1, false) = 4` on `u8`;
`to_bstring(10740) = "0010100111110100"` on `u16`. -/
theorem concrete_scenarios :
    get_bit 8 4 2 = some true ∧ get_bit 8 4 1 = some false ∧
    set_bit 8 0 2 true = some 4 ∧ set_bit 8 6 1 false = some 4 ∧
    to_bstring 16 10740 = "0010100111110100".data := by
  decide

end BinArray
